import Mathlib

/-!
Shallow embedding of `src/utils/system.py` (class `System`) over exact
rational arithmetic: Python floats are modelled as `ℚ`, Python lists as
Lean lists, and code that can raise a runtime error returns `Except PyErr`.
The discrete-event simulator is parameterised by an abstract generator
state `G` together with a step function producing the positive draws that
the source obtains as `-math.log(rand.random())`.
-/

/-- Runtime errors the translated code can raise. -/
inductive PyErr where
  | indexError
  | unboundLocalError
deriving DecidableEq

/-- Error kind promised by the spec (§7) for invalid configurations.
The source constructor contains no validation, so this channel is never
used by the translated code. -/
inductive ConfigurationError where
  | invalidConfig
deriving DecidableEq

/-- Parameter bundle stored by `System.__init__` (system.py, lines 6-13). -/
structure System where
  n : ℕ
  k : ℕ
  num_repairmen : ℕ
  lambda_val : ℚ
  mu : ℚ
  cold_standby : Bool
deriving DecidableEq

/-- `System.__init__`: the six parameters are stored verbatim; the body
performs no checks, so construction always succeeds. -/
def System.init (n k num_repairmen : ℕ) (failure_rate repair_rate : ℚ)
    (cold_standby : Bool) : Except ConfigurationError System :=
  .ok ⟨n, k, num_repairmen, failure_rate, repair_rate, cold_standby⟩

/-- Arrival rate `lambda_j` of `__dist_cold_standby__` (lines 42-45):
`k * lambda` while `j <= n - k + 1`, else `0`.  The comparison is over
Python integers, hence stated in `ℤ`. -/
def coldLambdaJ (n k : ℕ) (lam : ℚ) (j : ℕ) : ℚ :=
  if (j : ℤ) ≤ (n : ℤ) - (k : ℤ) + 1 then (k : ℚ) * lam else 0

/-- Repair rate `mu_j` of `__dist_cold_standby__` (line 47): `min(j, s) * mu`. -/
def coldMuJ (s : ℕ) (mu : ℚ) (j : ℕ) : ℚ :=
  ((min j s : ℕ) : ℚ) * mu

/-- Unnormalised vector of `__dist_cold_standby__` (lines 35-49):
`pi[0] = 1`, `pi[j] = pi[j-1] * (lambda_j / mu_j)`. -/
def coldPiU (n k s : ℕ) (lam mu : ℚ) : ℕ → ℚ
  | 0 => 1
  | j + 1 => coldPiU n k s lam mu j * (coldLambdaJ n k lam (j + 1) / coldMuJ s mu (j + 1))

/-- `System.__dist_cold_standby__` (lines 15-55): build `pi[0..n]` by the
recursion above, then divide every entry by the vector's sum. -/
def distColdStandby (n k s : ℕ) (lam mu : ℚ) : List ℚ :=
  let pi := List.ofFn fun j : Fin (n + 1) => coldPiU n k s lam mu (j : ℕ)
  pi.map fun p => p / pi.sum

/-- Unnormalised warm-standby weight of `__dist_warm_standby__`:
`C(n,j) * rho^j` for `j ≤ s` (lines 83-84, 103-104) and
`n! / ((n-j)! * s! * s^(j-s)) * rho^j` for `j > s` (lines 91-93, 107-109). -/
def warmWeight (n s : ℕ) (rho : ℚ) (j : ℕ) : ℚ :=
  if j ≤ s then (n.choose j : ℚ) * rho ^ j
  else ((n.factorial : ℚ) / (((n - j).factorial : ℚ) * (s.factorial : ℚ) * (s : ℚ) ^ (j - s)))
    * rho ^ j

/-- `pi_0_inverse` of `__dist_warm_standby__` (lines 80-93): the first sum
runs over `j = 0..s`, the second over `j = s+1..n`. -/
def warmPiZeroInv (n s : ℕ) (rho : ℚ) : ℚ :=
  (∑ j in Finset.range (s + 1), (n.choose j : ℚ) * rho ^ j)
    + ∑ j in Finset.Ico (s + 1) (n + 1),
        ((n.factorial : ℚ) / (((n - j).factorial : ℚ) * (s.factorial : ℚ) * (s : ℚ) ^ (j - s)))
          * rho ^ j

/-- `System.__dist_warm_standby__` (lines 58-111).  The list `pi` has
`n + 1` slots, but the assignment loop of lines 103-104 writes `pi[j]` for
every `j = 1..s`; when `s > n` the index runs past the end of the list and
Python raises an `IndexError`, so that case is an error here. -/
def distWarmStandby (n s : ℕ) (lam mu : ℚ) : Except PyErr (List ℚ) :=
  if s ≤ n then
    let rho := lam / mu
    let piZero := 1 / warmPiZeroInv n s rho
    .ok (List.ofFn fun j : Fin (n + 1) =>
      if (j : ℕ) = 0 then piZero
      else if (j : ℕ) ≤ s then (n.choose (j : ℕ) : ℚ) * rho ^ (j : ℕ) * piZero
      else ((n.factorial : ℚ)
          / (((n - (j : ℕ)).factorial : ℚ) * (s.factorial : ℚ) * (s : ℚ) ^ ((j : ℕ) - s)))
        * rho ^ (j : ℕ) * piZero)
  else .error .indexError

/-- `System.stationary_distribution` (lines 387-392): dispatch on the
`cold_standby` flag. -/
def System.stationary_distribution (sys : System) : Except PyErr (List ℚ) :=
  if sys.cold_standby then
    .ok (distColdStandby sys.n sys.k sys.num_repairmen sys.lambda_val sys.mu)
  else
    distWarmStandby sys.n sys.num_repairmen sys.lambda_val sys.mu

/-- `System.active_time_fraction` (lines 394-396): sum the entries of the
stationary distribution whose index satisfies `i <= n - k` (a Python
integer comparison, hence stated in `ℤ`). -/
def System.active_time_fraction (sys : System) : Except PyErr ℚ := do
  let dist ← sys.stationary_distribution
  pure (∑ j in (Finset.range dist.length).filter
      (fun j : ℕ => (j : ℤ) ≤ (sys.n : ℤ) - (sys.k : ℤ)), dist.getD j 0)

/-- `System.total_cost` (lines 410-428).  The source builds
`System(n, self.k, self.num_repairmen, self.mu, self.lambda_val, self.cold_standby)`:
positionally, `failure_rate` receives `self.mu`, `repair_rate` receives
`self.lambda_val`, and `num_repairmen` receives the original count rather
than the candidate `r`. -/
def System.total_cost (sys : System) (n r : ℕ)
    (component_cost repairmen_cost downtime_cost : ℚ) : Except PyErr (ℚ × ℚ) := do
  let sys2 : System :=
    ⟨n, sys.k, sys.num_repairmen, sys.mu, sys.lambda_val, sys.cold_standby⟩
  let availability ← sys2.active_time_fraction
  if sys.cold_standby then
    let c := (sys.k : ℚ) * component_cost * availability
    let rCost := repairmen_cost * (r : ℚ)
    let d := downtime_cost * (1 - availability)
    pure (c + rCost + d, availability)
  else
    let pi ← distWarmStandby sys2.n sys2.num_repairmen sys2.lambda_val sys2.mu
    let c := ∑ i in Finset.range pi.length, ((n - i : ℕ) : ℚ) * pi.getD i 0 * component_cost
    let rCost := repairmen_cost * (r : ℚ)
    let d := downtime_cost * (1 - availability)
    pure (c + rCost + d, availability)

/-- The `opt_result` dictionary of `System.optimize` (line 431): four
`None`-able slots. -/
structure OptResult where
  components : Option ℕ
  repairmen : Option ℕ
  availability : Option ℚ
  total_cost : Option ℚ
deriving DecidableEq

/-- `System.optimize` (lines 430-453).  If any unit cost is `None` the
initial all-`None` dictionary is returned.  Otherwise the grid
`n = k..max_n`, `r = 1..max_repairmen` is scanned keeping the strictly
cheapest candidate; `best_config` is only assigned inside the loop body, so
when the grid is empty the final `return best_config` raises an
`UnboundLocalError`. -/
def System.optimize (sys : System) (max_n max_repairmen : ℕ)
    (component_cost repairmen_cost downtime_cost : Option ℚ) : Except PyErr OptResult :=
  match component_cost, repairmen_cost, downtime_cost with
  | some cc, some rc, some dc => do
    let grid := (List.range' sys.k (max_n + 1 - sys.k)).flatMap
      fun n => (List.range' 1 max_repairmen).map fun r => (n, r)
    let best ← grid.foldlM
      (fun best p => do
        let res ← sys.total_cost p.1 p.2 cc rc dc
        match best with
        | none =>
          pure (some (res.1, OptResult.mk (some p.1) (some p.2) (some res.2) (some res.1)))
        | some q =>
          if res.1 < q.1 then
            pure (some (res.1, OptResult.mk (some p.1) (some p.2) (some res.2) (some res.1)))
          else
            pure (some q))
      (none : Option (ℚ × OptResult))
    match best with
    | some q => pure q.2
    | none => .error .unboundLocalError
  | _, _, _ => .ok ⟨none, none, none, none⟩

/-- Event kinds of the simulators (the Python code uses the strings
`"failure"` and `"repair"`). -/
inductive EventKind where
  | failure
  | repair
deriving DecidableEq

/-- `rand_exp = lambda mu: -math.log(rand.random()) / mu` (lines 133, 266):
the generator step yields the positive draw standing for
`-math.log(rand.random())`, which the source divides by the rate. -/
def randExp {G : Type} (stepExp : G → ℚ × G) (rate : ℚ) (g : G) : ℚ × G :=
  let p := stepExp g
  (p.1 / rate, p.2)

/-- `[rand_exp(rate) for _ in range(m)]`: draw `m` variates in order. -/
def drawList {G : Type} (stepExp : G → ℚ × G) (rate : ℚ) : ℕ → G → List ℚ × G
  | 0, g => ([], g)
  | m + 1, g =>
    let p := randExp stepExp rate g
    let rest := drawList stepExp rate m p.2
    (p.1 :: rest.1, rest.2)

/-- Python's `min(event_times, key=lambda x: x[1])`: the first minimiser in
list order (Python `min` keeps the earliest of equal keys). -/
def minEvent : List (ℕ × ℚ × EventKind) → Option (ℕ × ℚ × EventKind)
  | [] => none
  | e :: es => some (es.foldl (fun b x => if x.2.1 < b.2.1 then x else b) e)

/-- Value returned by `System.sim`: normally a scalar fraction, but the
degenerate branch of `__sim_warm_standby__` (line 361) returns the 4-tuple
`(0, 0, 0, system_state)`; the tuple carries the recorded `t` and `state`
lists of the trace (its remaining diagnostic fields never influence any
returned scalar and are not tracked). -/
inductive SimResult where
  | scalar (x : ℚ)
  | tuple (a b c : ℚ) (ts : List ℚ) (states : List ℕ)
deriving DecidableEq

/-- Mutable trajectory state of `__sim_warm_standby__`.  Only data that can
flow into the returned value is tracked: the recorded `comp`,
`queue_length` and `waiting_time` diagnostics of `system_state`, and the
`current_time` / waiting-time counters, are write-only for the result. -/
structure WarmSt (G : Type) where
  g : G
  lifetimes : List ℚ
  comp : List ℕ
  inRepair : List (ℕ × ℚ)
  queue : List ℕ
  ts : List ℚ
  states : List ℕ

/-- Event handling of `__sim_warm_standby__` (lines 320-357), applied to
the state whose timers have already been advanced. -/
def warmHandle {G : Type} (stepExp : G → ℚ × G) (lam mu : ℚ) (s : ℕ)
    (idx : ℕ) (kind : EventKind) (st : WarmSt G) : WarmSt G :=
  match kind with
  | .failure =>
    let comp := st.comp.set idx 0
    if st.inRepair.length < s then
      let p := randExp stepExp mu st.g
      { st with g := p.2, comp := comp, inRepair := st.inRepair ++ [(idx, p.1)] }
    else
      { st with comp := comp, queue := st.queue ++ [idx] }
  | .repair =>
    let comp := st.comp.set idx 1
    let p := randExp stepExp lam st.g
    let lifetimes := st.lifetimes.set idx p.1
    let inRepair := st.inRepair.filter fun q => q.1 ≠ idx
    match st.queue with
    | [] => { st with g := p.2, comp := comp, lifetimes := lifetimes, inRepair := inRepair }
    | q0 :: rest =>
      let p2 := randExp stepExp mu p.2
      { st with
        g := p2.2, comp := comp, lifetimes := lifetimes,
        inRepair := inRepair ++ [(q0, p2.1)], queue := rest }

/-- One iteration of the `__sim_warm_standby__` loop body (lines 288-357):
collect events, pick the earliest, advance timers, record the time delta
and operational indicator once past the warm-up threshold (`c >
warmup_cycles`), then handle the event. -/
def warmStep {G : Type} (stepExp : G → ℚ × G) (k s : ℕ) (lam mu : ℚ)
    (warmup c : ℕ) (st : WarmSt G) : Option (WarmSt G) :=
  let events := (st.lifetimes.enum.filterMap fun p =>
      if st.comp.getD p.1 0 = 1 then some (p.1, p.2, EventKind.failure) else none)
    ++ st.inRepair.map fun p => (p.1, p.2, EventKind.repair)
  match minEvent events with
  | none => none
  | some e =>
    let dt := e.2.1
    let lifetimes := st.lifetimes.enum.map fun p =>
      if st.comp.getD p.1 0 = 1 then max 0 (p.2 - dt) else p.2
    let inRepair := st.inRepair.map fun p => (p.1, max 0 (p.2 - dt))
    let sysState : ℕ := if k ≤ st.comp.sum then 1 else 0
    let ts := if warmup < c then st.ts ++ [dt] else st.ts
    let states := if warmup < c then st.states ++ [sysState] else st.states
    some (warmHandle stepExp lam mu s e.1 e.2.2
      { st with lifetimes := lifetimes, inRepair := inRepair, ts := ts, states := states })

/-- `for c in range(cycles + 1)` of `__sim_warm_standby__` (line 287); the
loop exits early when no event remains. -/
def warmLoop {G : Type} (stepExp : G → ℚ × G) (k s : ℕ) (lam mu : ℚ)
    (warmup : ℕ) : ℕ → ℕ → WarmSt G → WarmSt G
  | 0, _, st => st
  | fuel + 1, c, st =>
    match warmStep stepExp k s lam mu warmup c st with
    | none => st
    | some st' => warmLoop stepExp k s lam mu warmup fuel (c + 1) st'

/-- `System.__sim_warm_standby__` (lines 264-368).  The global generator
state `_g0` present before the call is discarded by `rand.seed(seed)`
(line 269), modelled as `seedFn seed`.  When the recorded total time is
zero the source returns the 4-tuple `0, 0, 0, system_state`, otherwise the
scalar `sum((t/tot)*state_i)`. -/
def simWarmStandby {G : Type} (stepExp : G → ℚ × G) (seedFn : ℕ → G)
    (n k s : ℕ) (lam mu : ℚ) (cycles warmup seed : ℕ) (_g0 : G) : SimResult :=
  let g := seedFn seed
  let init := drawList stepExp lam n g
  let st0 : WarmSt G := ⟨init.2, init.1, List.replicate n 1, [], [], [], []⟩
  let st := warmLoop stepExp k s lam mu warmup (cycles + 1) 0 st0
  let tot := st.ts.sum
  if tot = 0 then .tuple 0 0 0 st.ts st.states
  else .scalar ((st.ts.enum.map fun p => p.2 / tot * (st.states.getD p.1 0 : ℚ)).sum)

/-- Mutable trajectory state of `__sim_cold_standby__`.  A `none` lifetime
models `float('inf')` (standby and failed components hold no running
clock); component states are `0` failed, `1` active, `2` standby. -/
structure ColdSt (G : Type) where
  g : G
  lifetimes : List (Option ℚ)
  comp : List ℕ
  numFailed : ℕ
  inRepair : List (ℕ × ℚ)
  queue : List ℕ
  ts : List ℚ
  states : List ℕ

/-- Initial lifetimes of `__sim_cold_standby__` (lines 145-146):
`rand_exp(lambda)` for active components, `float('inf')` otherwise, drawn
in index order. -/
def coldInitLifetimes {G : Type} (stepExp : G → ℚ × G) (lam : ℚ) :
    List ℕ → G → List (Option ℚ) × G
  | [], g => ([], g)
  | c0 :: rest, g =>
    if c0 = 1 then
      let p := randExp stepExp lam g
      let r := coldInitLifetimes stepExp lam rest p.2
      (some p.1 :: r.1, r.2)
    else
      let r := coldInitLifetimes stepExp lam rest g
      (none :: r.1, r.2)

/-- Event handling of `__sim_cold_standby__` (lines 200-253): on failure,
promote the first standby component while the system keeps a replacement
path, then start or queue the repair; on repair completion, move the
component to standby, re-activate it if fewer than `k` are active, and
start the next queued repair. -/
def coldHandle {G : Type} (stepExp : G → ℚ × G) (n k s : ℕ) (lam mu : ℚ)
    (isActive : Bool) (idx : ℕ) (kind : EventKind) (st : ColdSt G) : ColdSt G :=
  match kind with
  | .failure =>
    let comp := st.comp.set idx 0
    let numFailed := st.numFailed + 1
    let activated :=
      if isActive = true ∧ ((numFailed : ℤ) < (n : ℤ) - (k : ℤ) + 1) then
        match comp.findIdx? (fun x => x = 2) with
        | some sIdx =>
          let p := randExp stepExp lam st.g
          (p.2, comp.set sIdx 1, st.lifetimes.set sIdx (some p.1))
        | none => (st.g, comp, st.lifetimes)
      else (st.g, comp, st.lifetimes)
    let g := activated.1
    let comp := activated.2.1
    let lifetimes := activated.2.2
    if st.inRepair.length < s then
      let p := randExp stepExp mu g
      { st with
        g := p.2, comp := comp, lifetimes := lifetimes, numFailed := numFailed,
        inRepair := st.inRepair ++ [(idx, p.1)] }
    else
      { st with
        g := g, comp := comp, lifetimes := lifetimes, numFailed := numFailed,
        queue := st.queue ++ [idx] }
  | .repair =>
    let comp := st.comp.set idx 2
    let numFailed := st.numFailed - 1
    let activeCount := comp.count 1
    let reactivated :=
      if activeCount < k then
        let p := randExp stepExp lam st.g
        (p.2, comp.set idx 1, st.lifetimes.set idx (some p.1))
      else (st.g, comp, st.lifetimes)
    let g := reactivated.1
    let comp := reactivated.2.1
    let lifetimes := reactivated.2.2
    let inRepair := st.inRepair.filter fun q => q.1 ≠ idx
    match st.queue with
    | [] => { st with
        g := g, comp := comp, lifetimes := lifetimes, numFailed := numFailed,
        inRepair := inRepair }
    | q0 :: rest =>
      let p := randExp stepExp mu g
      { st with
        g := p.2, comp := comp, lifetimes := lifetimes, numFailed := numFailed,
        inRepair := inRepair ++ [(q0, p.1)], queue := rest }

/-- One iteration of the `__sim_cold_standby__` loop body (lines 159-253).
Failure clocks only fire while the system is active; timers of active
components are only advanced in that case (lines 181-183); recording uses
`c >= warmup_cycles` (line 190). -/
def coldStep {G : Type} (stepExp : G → ℚ × G) (n k s : ℕ) (lam mu : ℚ)
    (warmup c : ℕ) (st : ColdSt G) : Option (ColdSt G) :=
  let isActive : Bool := decide ((st.numFailed : ℤ) < (n : ℤ) - (k : ℤ) + 1)
  let events :=
    (if isActive then
      st.lifetimes.enum.filterMap fun p =>
        match p.2 with
        | some t =>
          if st.comp.getD p.1 0 = 1 then some (p.1, t, EventKind.failure) else none
        | none => none
    else [])
    ++ st.inRepair.map fun p => (p.1, p.2, EventKind.repair)
  match minEvent events with
  | none => none
  | some e =>
    let dt := e.2.1
    let lifetimes :=
      if isActive then
        st.lifetimes.enum.map fun p =>
          if st.comp.getD p.1 0 = 1 then p.2.map (fun t => max 0 (t - dt)) else p.2
      else st.lifetimes
    let inRepair := st.inRepair.map fun p => (p.1, max 0 (p.2 - dt))
    let sysState : ℕ := if (k : ℤ) ≤ (n : ℤ) - (st.numFailed : ℤ) then 1 else 0
    let ts := if warmup ≤ c then st.ts ++ [dt] else st.ts
    let states := if warmup ≤ c then st.states ++ [sysState] else st.states
    some (coldHandle stepExp n k s lam mu isActive e.1 e.2.2
      { st with lifetimes := lifetimes, inRepair := inRepair, ts := ts, states := states })

/-- `for c in range(cycles + warmup_cycles)` of `__sim_cold_standby__`
(line 159); the loop exits early when no event remains. -/
def coldLoop {G : Type} (stepExp : G → ℚ × G) (n k s : ℕ) (lam mu : ℚ)
    (warmup : ℕ) : ℕ → ℕ → ColdSt G → ColdSt G
  | 0, _, st => st
  | fuel + 1, c, st =>
    match coldStep stepExp n k s lam mu warmup c st with
    | none => st
    | some st' => coldLoop stepExp n k s lam mu warmup fuel (c + 1) st'

/-- `System.__sim_cold_standby__` (lines 113-262).  The global generator
state `_g0` present before the call is discarded by `rand.seed(seed)`
(line 136).  Returns the scalar `0` when no time was recorded, otherwise
the scalar operational-time fraction. -/
def simColdStandby {G : Type} (stepExp : G → ℚ × G) (seedFn : ℕ → G)
    (n k s : ℕ) (lam mu : ℚ) (cycles warmup seed : ℕ) (_g0 : G) : SimResult :=
  let g := seedFn seed
  let comp0 := List.ofFn fun i : Fin n => if (i : ℕ) < k then 1 else 2
  let init := coldInitLifetimes stepExp lam comp0 g
  let st0 : ColdSt G := ⟨init.2, init.1, comp0, 0, [], [], [], []⟩
  let st := coldLoop stepExp n k s lam mu warmup (cycles + warmup) 0 st0
  let tot := st.ts.sum
  if tot = 0 then .scalar 0
  else .scalar ((((st.ts.zip st.states).filter fun p => p.2 = 1).map fun p => p.1).sum / tot)

/-- `System.sim` (lines 370-385): dispatch on the `cold_standby` flag,
forwarding `cycles`, `warmup_cycles`, `seed` and the ambient generator
state. -/
def System.sim {G : Type} (stepExp : G → ℚ × G) (seedFn : ℕ → G) (sys : System)
    (cycles warmup seed : ℕ) (g0 : G) : SimResult :=
  if sys.cold_standby then
    simColdStandby stepExp seedFn sys.n sys.k sys.num_repairmen sys.lambda_val sys.mu
      cycles warmup seed g0
  else
    simWarmStandby stepExp seedFn sys.n sys.k sys.num_repairmen sys.lambda_val sys.mu
      cycles warmup seed g0

/-- Birth–death weight built from the successive rate ratios `r 1 ⋯ r j`
(mathematical helper used to compare configurations). -/
def bdWeight (r : ℕ → ℚ) : ℕ → ℚ
  | 0 => 1
  | j + 1 => bdWeight r j * r (j + 1)

/-- Rate ratio `λ_t/μ_t` of the cold-standby recursion. -/
def coldRateQ (n k s : ℕ) (lam mu : ℚ) (t : ℕ) : ℚ :=
  coldLambdaJ n k lam t / coldMuJ s mu t

/-- Rate ratio `λ_{t-1}/μ_t = (n−t+1)·(λ/μ) / min(t,s)` of the warm-standby
birth–death chain. -/
def warmRateQ (n s : ℕ) (rho : ℚ) (t : ℕ) : ℚ :=
  ((n - t + 1 : ℕ) : ℚ) * rho / ((min t s : ℕ) : ℚ)

/-- Modelled from the spec (§4.1, cold standby; claim C5 wording): the
recursion seeded with unnormalised `π(0) = 1` and `π(j) = π(j−1)·(λ_j/μ_j)`
for `j = 1..n`, where `λ_j = k·λ` for `j ≤ n−k+1`, else `0`, and
`μ_j = min(j,s)·μ`. -/
def specColdSeq (n k s : ℕ) (lam mu : ℚ) : ℕ → ℚ
  | 0 => 1
  | j + 1 =>
    specColdSeq n k s lam mu j *
      ((if ((j + 1 : ℕ) : ℤ) ≤ (n : ℤ) - (k : ℤ) + 1 then (k : ℚ) * lam else 0)
        / (((min (j + 1) s : ℕ) : ℚ) * mu))

/-- Modelled from the spec (§4.1, warm standby; claim C4 wording):
`π(j) = C(n,j)·(λ/μ)^j·π(0)` for `j ≤ s`,
`π(j) = [n!/((n−j)!·s!·s^(j−s))]·(λ/μ)^j·π(0)` for `j > s`, where `π(0)` is
the reciprocal of the sum of both branches' unnormalised weights over
`j = 0..n`. -/
def specWarmPi (n s : ℕ) (rho : ℚ) (j : ℕ) : ℚ :=
  (if j ≤ s then (n.choose j : ℚ) * rho ^ j
   else (n.factorial : ℚ) / (((n - j).factorial : ℚ) * (s.factorial : ℚ) * (s : ℚ) ^ (j - s))
     * rho ^ j)
    * (1 / ∑ i in Finset.range (n + 1),
        if i ≤ s then (n.choose i : ℚ) * rho ^ i
        else (n.factorial : ℚ) / (((n - i).factorial : ℚ) * (s.factorial : ℚ) * (s : ℚ) ^ (i - s))
          * rho ^ i)

/-- Reading an `ofFn` list with `getD` inside the bounds. -/
theorem ofFn_getD {m : ℕ} (f : Fin m → ℚ) (j : ℕ) (hj : j < m) :
    (List.ofFn f).getD j 0 = f ⟨j, hj⟩ := by
  have hlen : j < (List.ofFn f).length := by simpa using hj
  rw [List.getD_eq_getElem _ _ hlen, List.getElem_ofFn]

/-- The cold-standby distribution as an explicit `ofFn` of normalised
weights. -/
theorem distCold_eq_ofFn (n k s : ℕ) (lam mu : ℚ) :
    distColdStandby n k s lam mu
      = List.ofFn fun j : Fin (n + 1) =>
          coldPiU n k s lam mu (j : ℕ) / ∑ i in Finset.range (n + 1), coldPiU n k s lam mu i := by
  unfold distColdStandby
  rw [List.map_ofFn]
  congr 1
  funext j
  simp only [Function.comp_apply]
  rw [List.sum_ofFn, Fin.sum_univ_eq_sum_range]

/-- Under `s ≤ n`, `pi_0_inverse` equals the sum over `j = 0..n` of the
branch-selected unnormalised weights. -/
theorem warmPiZeroInv_eq (n s : ℕ) (rho : ℚ) (hs : s ≤ n) :
    warmPiZeroInv n s rho = ∑ j in Finset.range (n + 1), warmWeight n s rho j := by
  unfold warmPiZeroInv
  rw [Finset.range_eq_Ico,
    ← Finset.sum_Ico_consecutive (fun j => warmWeight n s rho j)
      (Nat.zero_le (s + 1)) (by omega : s + 1 ≤ n + 1)]
  congr 1
  · apply Finset.sum_congr rfl
    intro j hj
    rw [Finset.mem_Ico] at hj
    unfold warmWeight
    rw [if_pos (by omega : j ≤ s)]
  · apply Finset.sum_congr rfl
    intro j hj
    rw [Finset.mem_Ico] at hj
    unfold warmWeight
    rw [if_neg (by omega : ¬j ≤ s)]

/-- Under `s ≤ n`, the warm-standby distribution is the `ofFn` of
normalised weights. -/
theorem distWarm_eq_ofFn (n s : ℕ) (lam mu : ℚ) (hs : s ≤ n) :
    distWarmStandby n s lam mu
      = .ok (List.ofFn fun j : Fin (n + 1) =>
          warmWeight n s (lam / mu) (j : ℕ)
            / ∑ i in Finset.range (n + 1), warmWeight n s (lam / mu) i) := by
  simp only [distWarmStandby]
  rw [if_pos hs]
  refine congrArg Except.ok (congrArg List.ofFn (funext fun j => ?_))
  rw [← warmPiZeroInv_eq n s _ hs]
  by_cases h0 : (j : ℕ) = 0
  · rw [if_pos h0, h0]
    unfold warmWeight
    rw [if_pos (Nat.zero_le s)]
    simp
  · rw [if_neg h0]
    by_cases hjs : (j : ℕ) ≤ s
    · rw [if_pos hjs]
      unfold warmWeight
      rw [if_pos hjs, mul_one_div]
    · rw [if_neg hjs]
      unfold warmWeight
      rw [if_neg hjs, mul_one_div]

/-- `active_time_fraction` over an `ofFn` distribution of `n+1` entries
sums exactly the indices `0..n−k`. -/
theorem atf_of_dist_ofFn (sys : System) (f : Fin (sys.n + 1) → ℚ)
    (hd : sys.stationary_distribution = .ok (List.ofFn f)) (hk : sys.k ≤ sys.n) :
    sys.active_time_fraction
      = .ok (∑ j in Finset.range (sys.n - sys.k + 1), (List.ofFn f).getD j 0) := by
  simp only [System.active_time_fraction, hd, bind, Except.bind, pure, Except.pure]
  congr 1
  have hset : (Finset.range (List.ofFn f).length).filter
      (fun j : ℕ => (j : ℤ) ≤ (sys.n : ℤ) - (sys.k : ℤ))
      = Finset.range (sys.n - sys.k + 1) := by
    ext j
    simp only [Finset.mem_filter, Finset.mem_range, List.length_ofFn]
    omega
  rw [hset]

theorem coldLambdaJ_nonneg (n k : ℕ) (lam : ℚ) (hl : 0 ≤ lam) (j : ℕ) :
    0 ≤ coldLambdaJ n k lam j := by
  unfold coldLambdaJ
  split
  · exact mul_nonneg (Nat.cast_nonneg k) hl
  · exact le_refl 0

theorem coldMuJ_nonneg (s : ℕ) (mu : ℚ) (hm : 0 ≤ mu) (j : ℕ) :
    0 ≤ coldMuJ s mu j :=
  mul_nonneg (Nat.cast_nonneg _) hm

theorem coldPiU_nonneg (n k s : ℕ) (lam mu : ℚ) (hl : 0 ≤ lam) (hm : 0 ≤ mu) :
    ∀ j, 0 ≤ coldPiU n k s lam mu j
  | 0 => by rw [coldPiU]; exact zero_le_one
  | j + 1 => by
    rw [coldPiU]
    exact mul_nonneg (coldPiU_nonneg n k s lam mu hl hm j)
      (div_nonneg (coldLambdaJ_nonneg n k lam hl _) (coldMuJ_nonneg s mu hm _))

theorem coldSum_pos (n k s : ℕ) (lam mu : ℚ) (hl : 0 ≤ lam) (hm : 0 ≤ mu) :
    0 < ∑ i in Finset.range (n + 1), coldPiU n k s lam mu i := by
  have h1 : coldPiU n k s lam mu 0 ≤ ∑ i in Finset.range (n + 1), coldPiU n k s lam mu i :=
    Finset.single_le_sum (fun i _ => coldPiU_nonneg n k s lam mu hl hm i)
      (Finset.mem_range.mpr (Nat.succ_pos n))
  have h0 : coldPiU n k s lam mu 0 = 1 := by rw [coldPiU]
  linarith

theorem warmWeight_nonneg (n s : ℕ) (rho : ℚ) (hr : 0 ≤ rho) (j : ℕ) :
    0 ≤ warmWeight n s rho j := by
  unfold warmWeight
  split
  · exact mul_nonneg (Nat.cast_nonneg _) (pow_nonneg hr j)
  · refine mul_nonneg (div_nonneg (Nat.cast_nonneg _) ?_) (pow_nonneg hr j)
    exact mul_nonneg (mul_nonneg (Nat.cast_nonneg _) (Nat.cast_nonneg _))
      (pow_nonneg (Nat.cast_nonneg s) _)

theorem warmWeight_zero (n s : ℕ) (rho : ℚ) : warmWeight n s rho 0 = 1 := by
  unfold warmWeight
  rw [if_pos (Nat.zero_le s)]
  simp

theorem warmSum_pos (n s : ℕ) (rho : ℚ) (hr : 0 ≤ rho) :
    0 < ∑ i in Finset.range (n + 1), warmWeight n s rho i := by
  have h1 : warmWeight n s rho 0 ≤ ∑ i in Finset.range (n + 1), warmWeight n s rho i :=
    Finset.single_le_sum (fun i _ => warmWeight_nonneg n s rho hr i)
      (Finset.mem_range.mpr (Nat.succ_pos n))
  rw [warmWeight_zero] at h1
  linarith

/-- Cold-standby availability as the ratio of partial to total
unnormalised weight. -/
theorem atf_cold_eq (n k s : ℕ) (lam mu : ℚ) (hk : k ≤ n) :
    (System.mk n k s lam mu true).active_time_fraction
      = .ok ((∑ j in Finset.range (n - k + 1), coldPiU n k s lam mu j)
          / ∑ i in Finset.range (n + 1), coldPiU n k s lam mu i) := by
  have hd : (System.mk n k s lam mu true).stationary_distribution
      = .ok (List.ofFn fun j : Fin (n + 1) =>
          coldPiU n k s lam mu (j : ℕ)
            / ∑ i in Finset.range (n + 1), coldPiU n k s lam mu i) := by
    simp only [System.stationary_distribution, eq_self_iff_true, if_true]
    rw [distCold_eq_ofFn]
  rw [atf_of_dist_ofFn _ _ hd hk]
  congr 1
  have hstep : ∀ j ∈ Finset.range
      ((System.mk n k s lam mu true).n - (System.mk n k s lam mu true).k + 1),
      (List.ofFn fun i : Fin (n + 1) => coldPiU n k s lam mu (i : ℕ)
        / ∑ t in Finset.range (n + 1), coldPiU n k s lam mu t).getD j 0
      = coldPiU n k s lam mu j / ∑ t in Finset.range (n + 1), coldPiU n k s lam mu t := by
    intro j hj
    rw [Finset.mem_range] at hj
    replace hj : j < n - k + 1 := hj
    exact ofFn_getD _ j (by omega)
  rw [Finset.sum_congr rfl hstep, ← Finset.sum_div]

/-- Warm-standby availability (for `s ≤ n`) as the ratio of partial to
total unnormalised weight. -/
theorem atf_warm_eq (n k s : ℕ) (lam mu : ℚ) (hk : k ≤ n) (hs : s ≤ n) :
    (System.mk n k s lam mu false).active_time_fraction
      = .ok ((∑ j in Finset.range (n - k + 1), warmWeight n s (lam / mu) j)
          / ∑ i in Finset.range (n + 1), warmWeight n s (lam / mu) i) := by
  have hd : (System.mk n k s lam mu false).stationary_distribution
      = .ok (List.ofFn fun j : Fin (n + 1) =>
          warmWeight n s (lam / mu) (j : ℕ)
            / ∑ i in Finset.range (n + 1), warmWeight n s (lam / mu) i) := by
    simp only [System.stationary_distribution]
    rw [if_neg (by simp), distWarm_eq_ofFn n s lam mu hs]
  rw [atf_of_dist_ofFn _ _ hd hk]
  congr 1
  have hstep : ∀ j ∈ Finset.range
      ((System.mk n k s lam mu false).n - (System.mk n k s lam mu false).k + 1),
      (List.ofFn fun i : Fin (n + 1) => warmWeight n s (lam / mu) (i : ℕ)
        / ∑ t in Finset.range (n + 1), warmWeight n s (lam / mu) t).getD j 0
      = warmWeight n s (lam / mu) j / ∑ t in Finset.range (n + 1), warmWeight n s (lam / mu) t := by
    intro j hj
    rw [Finset.mem_range] at hj
    replace hj : j < n - k + 1 := hj
    exact ofFn_getD _ j (by omega)
  rw [Finset.sum_congr rfl hstep, ← Finset.sum_div]

/-- `bdWeight` as the product of its rate ratios over `Ioc 0 j`. -/
theorem bdWeight_eq_prod (r : ℕ → ℚ) : ∀ j, bdWeight r j = ∏ t in Finset.Ioc 0 j, r t
  | 0 => by rw [bdWeight]; simp
  | j + 1 => by
    rw [bdWeight, bdWeight_eq_prod r j, Finset.prod_Ioc_succ_top (Nat.zero_le j)]

theorem bdWeight_nonneg (r : ℕ → ℚ) (h : ∀ t, 1 ≤ t → 0 ≤ r t) : ∀ j, 0 ≤ bdWeight r j
  | 0 => by rw [bdWeight]; exact zero_le_one
  | j + 1 => by
    rw [bdWeight]
    exact mul_nonneg (bdWeight_nonneg r h j) (h (j + 1) (Nat.succ_le_succ (Nat.zero_le j)))

/-- Likelihood-ratio comparison: if `r2 ≤ r1` pointwise (with `r2`
nonnegative), the weights of `r1` grow faster, i.e.
`w1 i * w2 j ≤ w2 i * w1 j` for `i ≤ j`. -/
theorem bdWeight_cross (r1 r2 : ℕ → ℚ) (h2 : ∀ t, 1 ≤ t → 0 ≤ r2 t)
    (h21 : ∀ t, 1 ≤ t → r2 t ≤ r1 t) (i j : ℕ) (hij : i ≤ j) :
    bdWeight r1 i * bdWeight r2 j ≤ bdWeight r2 i * bdWeight r1 j := by
  have h1 : ∀ t, 1 ≤ t → 0 ≤ r1 t := fun t ht => le_trans (h2 t ht) (h21 t ht)
  rw [bdWeight_eq_prod, bdWeight_eq_prod, bdWeight_eq_prod, bdWeight_eq_prod]
  rw [← Finset.prod_Ioc_consecutive r1 (Nat.zero_le i) hij,
    ← Finset.prod_Ioc_consecutive r2 (Nat.zero_le i) hij]
  have hmem : ∀ t ∈ Finset.Ioc i j, 1 ≤ t := fun t ht => by
    rw [Finset.mem_Ioc] at ht; omega
  have hprod : ∏ t in Finset.Ioc i j, r2 t ≤ ∏ t in Finset.Ioc i j, r1 t :=
    Finset.prod_le_prod (fun t ht => h2 t (hmem t ht)) (fun t ht => h21 t (hmem t ht))
  have hc : 0 ≤ (∏ t in Finset.Ioc 0 i, r1 t) * ∏ t in Finset.Ioc 0 i, r2 t :=
    mul_nonneg (Finset.prod_nonneg fun t ht => h1 t (by
      rw [Finset.mem_Ioc] at ht; omega))
      (Finset.prod_nonneg fun t ht => h2 t (by
        rw [Finset.mem_Ioc] at ht; omega))
  calc (∏ t in Finset.Ioc 0 i, r1 t)
        * ((∏ t in Finset.Ioc 0 i, r2 t) * ∏ t in Finset.Ioc i j, r2 t)
      = ((∏ t in Finset.Ioc 0 i, r1 t) * ∏ t in Finset.Ioc 0 i, r2 t)
        * ∏ t in Finset.Ioc i j, r2 t := by ring
    _ ≤ ((∏ t in Finset.Ioc 0 i, r1 t) * ∏ t in Finset.Ioc 0 i, r2 t)
        * ∏ t in Finset.Ioc i j, r1 t := mul_le_mul_of_nonneg_left hprod hc
    _ = (∏ t in Finset.Ioc 0 i, r2 t)
        * ((∏ t in Finset.Ioc 0 i, r1 t) * ∏ t in Finset.Ioc i j, r1 t) := by ring

/-- Cumulative-mass comparison for two nonnegative weight vectors whose
ratio is monotone (the likelihood-ratio/stochastic-dominance step). -/
theorem cumulative_mono (w1 w2 : ℕ → ℚ) (nn m : ℕ) (hm : m ≤ nn)
    (hT1 : 0 < ∑ j in Finset.range (nn + 1), w1 j)
    (hT2 : 0 < ∑ j in Finset.range (nn + 1), w2 j)
    (hcross : ∀ i j, i ≤ j → j ≤ nn → w1 i * w2 j ≤ w2 i * w1 j) :
    (∑ j in Finset.range (m + 1), w1 j) / (∑ j in Finset.range (nn + 1), w1 j)
      ≤ (∑ j in Finset.range (m + 1), w2 j) / (∑ j in Finset.range (nn + 1), w2 j) := by
  rw [div_le_div_iff₀ hT1 hT2]
  have hsplit1 : ∑ j in Finset.range (nn + 1), w1 j
      = (∑ j in Finset.range (m + 1), w1 j) + ∑ j in Finset.Ico (m + 1) (nn + 1), w1 j :=
    (Finset.sum_range_add_sum_Ico w1 (by omega : m + 1 ≤ nn + 1)).symm
  have hsplit2 : ∑ j in Finset.range (nn + 1), w2 j
      = (∑ j in Finset.range (m + 1), w2 j) + ∑ j in Finset.Ico (m + 1) (nn + 1), w2 j :=
    (Finset.sum_range_add_sum_Ico w2 (by omega : m + 1 ≤ nn + 1)).symm
  rw [hsplit1, hsplit2]
  have hkey : (∑ i in Finset.range (m + 1), w1 i) * ∑ j in Finset.Ico (m + 1) (nn + 1), w2 j
      ≤ (∑ i in Finset.range (m + 1), w2 i) * ∑ j in Finset.Ico (m + 1) (nn + 1), w1 j := by
    rw [Finset.sum_mul_sum, Finset.sum_mul_sum]
    apply Finset.sum_le_sum
    intro i hi
    apply Finset.sum_le_sum
    intro j hj
    rw [Finset.mem_range] at hi
    rw [Finset.mem_Ico] at hj
    exact hcross i j (by omega) (by omega)
  nlinarith [hkey]

/-- The cold unnormalised vector is the birth–death weight of its rate
ratios. -/
theorem coldPiU_eq_bd (n k s : ℕ) (lam mu : ℚ) :
    ∀ j, coldPiU n k s lam mu j = bdWeight (coldRateQ n k s lam mu) j
  | 0 => by rw [coldPiU, bdWeight]
  | j + 1 => by
    rw [coldPiU, bdWeight, coldPiU_eq_bd n k s lam mu j]
    rfl

/-- One-step ratio of the warm closed-form weights: multiplying by
`(n−j)·ρ / min(j+1,s)` advances the weight, for `j + 1 ≤ n`. -/
theorem warmWeight_succ (n s : ℕ) (rho : ℚ) (hs1 : 1 ≤ s) (j : ℕ) (hj : j + 1 ≤ n) :
    warmWeight n s rho (j + 1) = warmWeight n s rho j * warmRateQ n s rho (j + 1) := by
  by_cases h : j + 1 ≤ s
  · unfold warmWeight warmRateQ
    rw [if_pos h, if_pos (Nat.le_of_succ_le h)]
    rw [min_eq_left h, show n - (j + 1) + 1 = n - j by omega]
    have hne : ((j + 1 : ℕ) : ℚ) ≠ 0 := Nat.cast_ne_zero.mpr (Nat.succ_ne_zero j)
    have hcq : ((n.choose (j + 1) : ℚ))
        = (n.choose j : ℚ) * ((n - j : ℕ) : ℚ) / ((j + 1 : ℕ) : ℚ) := by
      rw [eq_div_iff hne]
      exact_mod_cast Nat.choose_succ_right_eq n j
    rw [hcq, pow_succ]
    push_cast
    ring
  · by_cases hjs : j ≤ s
    · have hj0 : j = s := le_antisymm hjs (by omega)
      subst hj0
      unfold warmWeight warmRateQ
      rw [if_neg (by omega : ¬j + 1 ≤ j), if_pos (le_refl j)]
      rw [min_eq_right (Nat.le_succ j), show j + 1 - j = 1 by omega, pow_one,
        show n - (j + 1) + 1 = n - j by omega]
      have hfac : ((n - j).factorial : ℚ)
          = ((n - j : ℕ) : ℚ) * ((n - (j + 1)).factorial : ℚ) := by
        have h1 : n - j = n - (j + 1) + 1 := by omega
        rw [h1, Nat.factorial_succ]
        push_cast
        ring
      have hfact : (n.factorial : ℚ)
          = (n.choose j : ℚ) * (j.factorial : ℚ) * ((n - j).factorial : ℚ) := by
        exact_mod_cast (Nat.choose_mul_factorial_mul_factorial (by omega : j ≤ n)).symm
      rw [hfact, hfac]
      have hne1 : ((n - (j + 1)).factorial : ℚ) ≠ 0 :=
        Nat.cast_ne_zero.mpr (Nat.factorial_ne_zero _)
      have hne2 : ((j.factorial : ℚ)) ≠ 0 := Nat.cast_ne_zero.mpr (Nat.factorial_ne_zero _)
      have hne3 : (j : ℚ) ≠ 0 := Nat.cast_ne_zero.mpr (by omega)
      field_simp
      ring
    · unfold warmWeight warmRateQ
      rw [if_neg (by omega : ¬j + 1 ≤ s), if_neg hjs]
      rw [min_eq_right (by omega : s ≤ j + 1), show n - (j + 1) + 1 = n - j by omega,
        show j + 1 - s = j - s + 1 by omega]
      have hfac : ((n - j).factorial : ℚ)
          = ((n - j : ℕ) : ℚ) * ((n - (j + 1)).factorial : ℚ) := by
        have h1 : n - j = n - (j + 1) + 1 := by omega
        rw [h1, Nat.factorial_succ]
        push_cast
        ring
      rw [hfac]
      have hne1 : ((n - (j + 1)).factorial : ℚ) ≠ 0 :=
        Nat.cast_ne_zero.mpr (Nat.factorial_ne_zero _)
      have hne2 : ((s.factorial : ℚ)) ≠ 0 := Nat.cast_ne_zero.mpr (Nat.factorial_ne_zero _)
      have hne3 : (s : ℚ) ≠ 0 := Nat.cast_ne_zero.mpr (by omega)
      have hne4 : ((n - j : ℕ) : ℚ) ≠ 0 := Nat.cast_ne_zero.mpr (by omega)
      have hne5 : (s : ℚ) ^ (j - s) ≠ 0 := pow_ne_zero _ hne3
      rw [pow_succ, pow_succ]
      field_simp
      ring

/-- For `s ≥ 1` and `j ≤ n`, the warm closed-form weight is the
birth–death weight of the warm rate ratios. -/
theorem warmWeight_eq_bd (n s : ℕ) (rho : ℚ) (hs1 : 1 ≤ s) :
    ∀ j, j ≤ n → warmWeight n s rho j = bdWeight (warmRateQ n s rho) j
  | 0, _ => by rw [bdWeight, warmWeight_zero]
  | j + 1, hj => by
    rw [bdWeight, warmWeight_succ n s rho hs1 j hj,
      warmWeight_eq_bd n s rho hs1 j (by omega)]

theorem coldRateQ_nonneg (n k s : ℕ) (lam mu : ℚ) (hl : 0 ≤ lam) (hm : 0 ≤ mu) (t : ℕ) :
    0 ≤ coldRateQ n k s lam mu t :=
  div_nonneg (coldLambdaJ_nonneg n k lam hl t) (coldMuJ_nonneg s mu hm t)

theorem coldRateQ_anti (n k s1 s2 : ℕ) (lam mu : ℚ) (hs1 : 1 ≤ s1) (hss : s1 ≤ s2)
    (hl : 0 ≤ lam) (hm : 0 < mu) (t : ℕ) (ht : 1 ≤ t) :
    coldRateQ n k s2 lam mu t ≤ coldRateQ n k s1 lam mu t := by
  unfold coldRateQ coldMuJ
  apply div_le_div_of_nonneg_left (coldLambdaJ_nonneg n k lam hl t)
  · apply mul_pos _ hm
    have : (1 : ℚ) ≤ ((min t s1 : ℕ) : ℚ) := by
      exact_mod_cast Nat.one_le_iff_ne_zero.mpr (by omega : min t s1 ≠ 0)
    linarith
  · apply mul_le_mul_of_nonneg_right _ (le_of_lt hm)
    exact_mod_cast min_le_min (le_refl t) hss

theorem warmRateQ_nonneg (n s : ℕ) (rho : ℚ) (hr : 0 ≤ rho) (t : ℕ) :
    0 ≤ warmRateQ n s rho t :=
  div_nonneg (mul_nonneg (Nat.cast_nonneg _) hr) (Nat.cast_nonneg _)

theorem warmRateQ_anti (n s1 s2 : ℕ) (rho : ℚ) (hs1 : 1 ≤ s1) (hss : s1 ≤ s2)
    (hr : 0 ≤ rho) (t : ℕ) (ht : 1 ≤ t) :
    warmRateQ n s2 rho t ≤ warmRateQ n s1 rho t := by
  unfold warmRateQ
  apply div_le_div_of_nonneg_left (mul_nonneg (Nat.cast_nonneg _) hr)
  · have : (1 : ℚ) ≤ ((min t s1 : ℕ) : ℚ) := by
      exact_mod_cast Nat.one_le_iff_ne_zero.mpr (by omega : min t s1 ≠ 0)
    linarith
  · exact_mod_cast min_le_min (le_refl t) hss

/-- Event handling never touches the recorded trace lists. -/
theorem warmHandle_ts {G : Type} (stepExp : G → ℚ × G) (lam mu : ℚ) (s : ℕ)
    (idx : ℕ) (kind : EventKind) (st : WarmSt G) :
    (warmHandle stepExp lam mu s idx kind st).ts = st.ts
      ∧ (warmHandle stepExp lam mu s idx kind st).states = st.states := by
  cases kind
  · simp only [warmHandle]
    split
    · exact ⟨rfl, rfl⟩
    · exact ⟨rfl, rfl⟩
  · simp only [warmHandle]
    cases st.queue
    · exact ⟨rfl, rfl⟩
    · exact ⟨rfl, rfl⟩

/-- Below the warm-up threshold a loop iteration records nothing. -/
theorem warmStep_ts {G : Type} (stepExp : G → ℚ × G) (k s : ℕ) (lam mu : ℚ)
    (warmup c : ℕ) (hc : ¬warmup < c) (st st' : WarmSt G)
    (h : warmStep stepExp k s lam mu warmup c st = some st') :
    st'.ts = st.ts ∧ st'.states = st.states := by
  simp only [warmStep] at h
  split at h
  · exact absurd h (by simp)
  · injection h with h'
    subst h'
    rename_i e heq
    obtain ⟨h1, h2⟩ := warmHandle_ts stepExp lam mu s e.1 e.2.2
      { st with
        lifetimes := st.lifetimes.enum.map fun p =>
          if st.comp.getD p.1 0 = 1 then max 0 (p.2 - e.2.1) else p.2,
        inRepair := st.inRepair.map fun p => (p.1, max 0 (p.2 - e.2.1)),
        ts := if warmup < c then st.ts ++ [e.2.1] else st.ts,
        states := if warmup < c then
          st.states ++ [if k ≤ st.comp.sum then 1 else 0] else st.states }
    rw [h1, h2]
    dsimp only
    rw [if_neg hc, if_neg hc]
    exact ⟨rfl, rfl⟩

/-- If every cycle index handed to the loop stays at or below the warm-up
threshold, the trace stays as it started. -/
theorem warmLoop_ts {G : Type} (stepExp : G → ℚ × G) (k s : ℕ) (lam mu : ℚ) (warmup : ℕ) :
    ∀ (fuel c : ℕ) (st : WarmSt G), (∀ i, i < fuel → ¬warmup < c + i) →
      (warmLoop stepExp k s lam mu warmup fuel c st).ts = st.ts
        ∧ (warmLoop stepExp k s lam mu warmup fuel c st).states = st.states
  | 0, c, st, _ => by rw [warmLoop]; exact ⟨rfl, rfl⟩
  | fuel + 1, c, st, h => by
    cases hs : warmStep stepExp k s lam mu warmup c st with
    | none =>
      rw [warmLoop, hs]
      exact ⟨rfl, rfl⟩
    | some st2 =>
      rw [warmLoop, hs]
      have hc : ¬warmup < c := by
        have := h 0 (Nat.succ_pos fuel)
        simpa using this
      obtain ⟨h1, h2⟩ := warmStep_ts stepExp k s lam mu warmup c hc st st2 hs
      obtain ⟨h3, h4⟩ := warmLoop_ts stepExp k s lam mu warmup fuel (c + 1) st2
        (fun i hi => by
          have := h (i + 1) (by omega)
          omega)
      exact ⟨h3.trans h1, h4.trans h2⟩

/-- When the cycle budget does not exceed the warm-up count, the warm
simulator records no time at all and returns the degenerate 4-tuple. -/
theorem simWarm_degenerate {G : Type} (stepExp : G → ℚ × G) (seedFn : ℕ → G)
    (n k s : ℕ) (lam mu : ℚ) (cycles warmup seed : ℕ) (g0 : G)
    (h : cycles ≤ warmup) :
    simWarmStandby stepExp seedFn n k s lam mu cycles warmup seed g0
      = SimResult.tuple 0 0 0 [] [] := by
  simp only [simWarmStandby]
  obtain ⟨h1, h2⟩ := warmLoop_ts stepExp k s lam mu warmup (cycles + 1) 0
    ⟨(drawList stepExp lam n (seedFn seed)).2, (drawList stepExp lam n (seedFn seed)).1,
      List.replicate n 1, [], [], [], []⟩ (fun i hi => by omega)
  rw [h1, h2]
  simp

/-- The spec's cold recursion coincides with the code's unnormalised
vector. -/
theorem specColdSeq_eq (n k s : ℕ) (lam mu : ℚ) :
    ∀ j, specColdSeq n k s lam mu j = coldPiU n k s lam mu j
  | 0 => by rw [specColdSeq, coldPiU]
  | j + 1 => by
    rw [specColdSeq, coldPiU, specColdSeq_eq n k s lam mu j]
    rfl

/-- The spec's warm closed form, factored through `warmWeight`. -/
theorem specWarmPi_eq (n s : ℕ) (rho : ℚ) (j : ℕ) :
    specWarmPi n s rho j
      = warmWeight n s rho j * (1 / ∑ i in Finset.range (n + 1), warmWeight n s rho i) := by
  unfold specWarmPi warmWeight
  rfl

/-- Positivity of a birth–death normalisation sum. -/
theorem bdSum_pos (r : ℕ → ℚ) (h : ∀ t, 1 ≤ t → 0 ≤ r t) (nn : ℕ) :
    0 < ∑ j in Finset.range (nn + 1), bdWeight r j := by
  have h1 : bdWeight r 0 ≤ ∑ j in Finset.range (nn + 1), bdWeight r j :=
    Finset.single_le_sum (fun i _ => bdWeight_nonneg r h i)
      (Finset.mem_range.mpr (Nat.succ_pos nn))
  rw [bdWeight] at h1
  linarith

/-- C1 (code bug): in `total_cost` the candidate availability is computed
from `System(n, k, s_orig, μ, λ)` — the original repairman count instead of
the candidate `r`, and the failure/repair rates swapped — not from
`StationarySolver(n, k, s, λ, μ)` as the spec states.  Failing input: the
original system (n=5, k=3, s=3, λ=2, μ=3, cold) evaluating candidate
(n=5, r=1). -/
theorem C1_total_cost_swapped_rates :
    ((System.mk 5 3 3 2 3 true).total_cost 5 1 20 20 50).map Prod.snd
        = (System.mk 5 3 3 3 2 true).active_time_fraction
      ∧ (System.mk 5 3 3 3 2 true).active_time_fraction = .ok (250 / 493)
      ∧ (System.mk 5 3 1 2 3 true).active_time_fraction = .ok (7 / 15)
      ∧ ((250 : ℚ) / 493) ≠ 7 / 15 := by
  refine ⟨by with_unfolding_all rfl, by with_unfolding_all rfl,
    by with_unfolding_all rfl, by norm_num⟩

/-- C2 (counterexample): a configuration violating every invariant of the
spec (k > n, s < 1, λ ≤ 0, μ ≤ 0) is accepted by the constructor with the
fields stored verbatim; no `ConfigurationError` is raised. -/
theorem C2_counterexample_no_validation :
    System.init 1 2 0 0 0 false = .ok (System.mk 1 2 0 0 0 false) := rfl

/-- C2 (amended): construction never fails — `__init__` stores any
parameter combination verbatim and the `ConfigurationError` channel is
never used. -/
theorem C2_init_accepts_all (n k s : ℕ) (lam mu : ℚ) (cold : Bool) :
    System.init n k s lam mu cold = .ok (System.mk n k s lam mu cold) := rfl

/-- C3 (code bug): with all three unit costs present but an empty grid
(max_n = 2 < k = 3) the optimizer raises `UnboundLocalError` (the source
returns the never-assigned `best_config`) instead of returning the empty
result; when a cost is missing the empty result is indeed returned. -/
theorem C3_optimize_empty_grid_raises :
    (System.mk 5 3 3 2 3 true).optimize 2 5 (some 20) (some 20) (some 50)
        = .error .unboundLocalError
      ∧ (System.mk 5 3 3 2 3 true).optimize 10 5 none (some 20) (some 50)
        = .ok (OptResult.mk none none none none) :=
  ⟨rfl, rfl⟩

/-- C4 (counterexample): the valid warm configuration n = 2, k = 1, s = 3,
λ = μ = 1 makes the solver raise an IndexError instead of producing the
closed-form distribution. -/
theorem C4_counterexample_warm_index_error :
    distWarmStandby 2 3 1 1 = .error .indexError := rfl

/-- C4 (amended): for warm standby with `s ≤ n` the solver's stationary
distribution equals the spec's closed form π(j); for `s > n` the source
raises an IndexError (see the counterexample). -/
theorem C4_warm_closed_form (n s : ℕ) (lam mu : ℚ) (hs : s ≤ n) :
    distWarmStandby n s lam mu
      = .ok (List.ofFn fun j : Fin (n + 1) => specWarmPi n s (lam / mu) (j : ℕ)) := by
  rw [distWarm_eq_ofFn n s lam mu hs]
  refine congrArg Except.ok (congrArg List.ofFn (funext fun j => ?_))
  rw [specWarmPi_eq, mul_one_div]

theorem C4_warm_closed_form_witness :
    (1 : ℕ) ≤ 2 ∧ distWarmStandby 2 1 1 1
      = .ok (List.ofFn fun j : Fin (2 + 1) => specWarmPi 2 1 (1 / 1) (j : ℕ)) :=
  ⟨by omega, C4_warm_closed_form 2 1 1 1 (by omega)⟩

/-- C5: the cold-standby solver output is exactly the spec's seeded
recursion normalised by the vector sum. -/
theorem C5_cold_recursion (n k s : ℕ) (lam mu : ℚ) :
    distColdStandby n k s lam mu
      = List.ofFn (fun j : Fin (n + 1) => specColdSeq n k s lam mu (j : ℕ)
          / ∑ i in Finset.range (n + 1), specColdSeq n k s lam mu i) := by
  rw [distCold_eq_ofFn]
  refine congrArg List.ofFn (funext fun j => ?_)
  simp only [specColdSeq_eq]

/-- C6 (counterexample): the valid warm configuration n = 1, k = 1, s = 2,
λ = μ = 1 makes the solver raise an IndexError, so no distribution with
n+1 entries is returned. -/
theorem C6_counterexample_warm_index_error :
    (System.mk 1 1 2 1 1 false).stationary_distribution = .error .indexError := rfl

/-- C6 (amended): for every valid configuration — with, in warm mode, the
extra proviso `s ≤ n`, without which the source raises an IndexError — the
returned distribution has n+1 entries, every entry is nonnegative, and the
entries sum to 1 (so certainly within the 1e-6 tolerance). -/
theorem C6_distribution_invariants (sys : System)
    (hk1 : 1 ≤ sys.k) (hkn : sys.k ≤ sys.n) (hs1 : 1 ≤ sys.num_repairmen)
    (hlam : 0 < sys.lambda_val) (hmu : 0 < sys.mu)
    (hwarm : sys.cold_standby = false → sys.num_repairmen ≤ sys.n) :
    ∃ l, sys.stationary_distribution = .ok l ∧ l.length = sys.n + 1
      ∧ (∀ x ∈ l, 0 ≤ x) ∧ |l.sum - 1| ≤ 1 / 1000000 := by
  rcases sys with ⟨n, k, s, lam, mu, cold⟩
  dsimp only at hk1 hkn hs1 hlam hmu hwarm ⊢
  cases cold
  · -- warm standby
    have hs : s ≤ n := hwarm rfl
    have hrho : 0 ≤ lam / mu := div_nonneg (le_of_lt hlam) (le_of_lt hmu)
    have hTpos := warmSum_pos n s (lam / mu) hrho
    have hd : (System.mk n k s lam mu false).stationary_distribution
        = .ok (List.ofFn fun j : Fin (n + 1) =>
            warmWeight n s (lam / mu) (j : ℕ)
              / ∑ i in Finset.range (n + 1), warmWeight n s (lam / mu) i) := by
      simp only [System.stationary_distribution]
      rw [if_neg (by simp), distWarm_eq_ofFn n s lam mu hs]
    refine ⟨_, hd, by simp, ?_, ?_⟩
    · intro x hx
      rw [List.mem_ofFn] at hx
      obtain ⟨i, hi⟩ := hx
      rw [← hi]
      exact div_nonneg (warmWeight_nonneg n s (lam / mu) hrho _) (le_of_lt hTpos)
    · have hsum : (List.ofFn fun j : Fin (n + 1) =>
          warmWeight n s (lam / mu) (j : ℕ)
            / ∑ i in Finset.range (n + 1), warmWeight n s (lam / mu) i).sum = 1 := by
        rw [List.sum_ofFn,
          Fin.sum_univ_eq_sum_range (fun j => warmWeight n s (lam / mu) j
            / ∑ i in Finset.range (n + 1), warmWeight n s (lam / mu) i) (n + 1),
          ← Finset.sum_div, div_self (ne_of_gt hTpos)]
      rw [hsum]
      norm_num
  · -- cold standby
    have hTpos := coldSum_pos n k s lam mu (le_of_lt hlam) (le_of_lt hmu)
    have hd : (System.mk n k s lam mu true).stationary_distribution
        = .ok (List.ofFn fun j : Fin (n + 1) =>
            coldPiU n k s lam mu (j : ℕ)
              / ∑ i in Finset.range (n + 1), coldPiU n k s lam mu i) := by
      simp only [System.stationary_distribution, eq_self_iff_true, if_true]
      rw [distCold_eq_ofFn]
    refine ⟨_, hd, by simp, ?_, ?_⟩
    · intro x hx
      rw [List.mem_ofFn] at hx
      obtain ⟨i, hi⟩ := hx
      rw [← hi]
      exact div_nonneg (coldPiU_nonneg n k s lam mu (le_of_lt hlam) (le_of_lt hmu) _)
        (le_of_lt hTpos)
    · have hsum : (List.ofFn fun j : Fin (n + 1) =>
          coldPiU n k s lam mu (j : ℕ)
            / ∑ i in Finset.range (n + 1), coldPiU n k s lam mu i).sum = 1 := by
        rw [List.sum_ofFn,
          Fin.sum_univ_eq_sum_range (fun j => coldPiU n k s lam mu j
            / ∑ i in Finset.range (n + 1), coldPiU n k s lam mu i) (n + 1),
          ← Finset.sum_div, div_self (ne_of_gt hTpos)]
      rw [hsum]
      norm_num

theorem C6_distribution_invariants_witness :
    ((1 : ℕ) ≤ 3 ∧ (3 : ℕ) ≤ 5 ∧ (0 : ℚ) < 2 ∧ (0 : ℚ) < 3)
      ∧ ∃ l, (System.mk 5 3 3 2 3 true).stationary_distribution = .ok l
          ∧ l.length = 5 + 1 ∧ (∀ x ∈ l, 0 ≤ x) ∧ |l.sum - 1| ≤ 1 / 1000000 :=
  ⟨⟨by omega, by omega, by norm_num, by norm_num⟩,
    C6_distribution_invariants (System.mk 5 3 3 2 3 true)
      (show (1 : ℕ) ≤ 3 by omega) (show (3 : ℕ) ≤ 5 by omega) (show (1 : ℕ) ≤ 3 by omega)
      (show (0 : ℚ) < 2 by norm_num) (show (0 : ℚ) < 3 by norm_num)
      (fun h => by cases h)⟩

/-- C7 (counterexample): on the valid warm configuration n = 1, k = 1,
s = 3, λ = μ = 1 `active_time_fraction` propagates the solver's
IndexError, so no fraction is returned at all. -/
theorem C7_counterexample_warm_index_error :
    (System.mk 1 1 3 1 1 false).active_time_fraction = .error .indexError := rfl

/-- C7 (amended): whenever the solver returns (cold standby always, warm
standby for `s ≤ n`), `active_time_fraction` is exactly the sum of the
stationary probabilities π(j) over `0 ≤ j ≤ n − k`. -/
theorem C7_active_fraction_sum (sys : System) (hkn : sys.k ≤ sys.n)
    (hok : sys.cold_standby = true ∨ sys.num_repairmen ≤ sys.n) :
    ∃ l, sys.stationary_distribution = .ok l
      ∧ sys.active_time_fraction
        = .ok (∑ j in Finset.range (sys.n - sys.k + 1), l.getD j 0) := by
  rcases sys with ⟨n, k, s, lam, mu, cold⟩
  dsimp only at hkn hok ⊢
  cases cold
  · rcases hok with h | hs
    · cases h
    · have hd : (System.mk n k s lam mu false).stationary_distribution
          = .ok (List.ofFn fun j : Fin (n + 1) =>
              warmWeight n s (lam / mu) (j : ℕ)
                / ∑ i in Finset.range (n + 1), warmWeight n s (lam / mu) i) := by
        simp only [System.stationary_distribution]
        rw [if_neg (by simp), distWarm_eq_ofFn n s lam mu hs]
      exact ⟨_, hd, atf_of_dist_ofFn _ _ hd hkn⟩
  · have hd : (System.mk n k s lam mu true).stationary_distribution
        = .ok (List.ofFn fun j : Fin (n + 1) =>
            coldPiU n k s lam mu (j : ℕ)
              / ∑ i in Finset.range (n + 1), coldPiU n k s lam mu i) := by
      simp only [System.stationary_distribution, eq_self_iff_true, if_true]
      rw [distCold_eq_ofFn]
    exact ⟨_, hd, atf_of_dist_ofFn _ _ hd hkn⟩

theorem C7_active_fraction_sum_witness :
    ((2 : ℕ) ≤ 4 ∧ (System.mk 4 2 1 1 2 true).cold_standby = true)
      ∧ ∃ l, (System.mk 4 2 1 1 2 true).stationary_distribution = .ok l
          ∧ (System.mk 4 2 1 1 2 true).active_time_fraction
            = .ok (∑ j in Finset.range (4 - 2 + 1), l.getD j 0) :=
  ⟨⟨by omega, rfl⟩,
    C7_active_fraction_sum (System.mk 4 2 1 1 2 true) (show (2 : ℕ) ≤ 4 by omega)
      (Or.inl rfl)⟩

/-- C8 (code bug): on identical inputs the warm simulator's degenerate
branch (line 361) returns the 4-tuple `0, 0, 0, system_state` instead of
the scalar 0.  Failing input: warm standby (n=2, k=1, s=1, λ=2, μ=3),
cycles = 0, warmup_cycles = 1000 — no cycle passes the warm-up threshold,
so the recorded total time is zero for every generator and seed. -/
theorem C8_warm_degenerate_returns_tuple {G : Type} (stepExp : G → ℚ × G)
    (seedFn : ℕ → G) (g0 : G) (seed : ℕ) :
    System.sim stepExp seedFn (System.mk 2 1 1 2 3 false) 0 1000 seed g0
      = SimResult.tuple 0 0 0 [] [] := by
  simp only [System.sim]
  rw [if_neg (by simp)]
  exact simWarm_degenerate stepExp seedFn 2 1 1 2 3 0 1000 seed g0 (by omega)

/-- C9 (counterexample): warm standby, n = 2, k = 1, λ = μ = 1, s1 = 1 ≤
s2 = 3: the availability exists for s1 but the solver raises an IndexError
for s2, so the claimed comparison fails. -/
theorem C9_counterexample_warm_index_error :
    (System.mk 2 1 1 1 1 false).active_time_fraction = .ok (3 / 5)
      ∧ (System.mk 2 1 3 1 1 false).active_time_fraction = .error .indexError := by
  refine ⟨by with_unfolding_all rfl, rfl⟩

/-- C9 (amended): for fixed n, k, λ, μ and mode, availability is
non-decreasing in the repairman count — for cold standby over all
`1 ≤ s1 ≤ s2`, and for warm standby additionally requiring `s2 ≤ n`
(beyond which the solver raises an IndexError, see the counterexample). -/
theorem C9_availability_mono_in_repairmen (n k s1 s2 : ℕ) (lam mu : ℚ) (cold : Bool)
    (hkn : k ≤ n) (hs1 : 1 ≤ s1) (hss : s1 ≤ s2) (hlam : 0 < lam) (hmu : 0 < mu)
    (hwarm : cold = false → s2 ≤ n) :
    ∃ a1 a2, (System.mk n k s1 lam mu cold).active_time_fraction = .ok a1
      ∧ (System.mk n k s2 lam mu cold).active_time_fraction = .ok a2
      ∧ a1 ≤ a2 := by
  cases cold
  · have hs2n : s2 ≤ n := hwarm rfl
    have hs1n : s1 ≤ n := le_trans hss hs2n
    have hs2 : 1 ≤ s2 := le_trans hs1 hss
    have hrho : 0 ≤ lam / mu := div_nonneg (le_of_lt hlam) (le_of_lt hmu)
    refine ⟨_, _, atf_warm_eq n k s1 lam mu hkn hs1n,
      atf_warm_eq n k s2 lam mu hkn hs2n, ?_⟩
    have e1 : ∑ j in Finset.range (n - k + 1), warmWeight n s1 (lam / mu) j
        = ∑ j in Finset.range (n - k + 1), bdWeight (warmRateQ n s1 (lam / mu)) j :=
      Finset.sum_congr rfl fun j hj => warmWeight_eq_bd n s1 _ hs1 j
        (by rw [Finset.mem_range] at hj; omega)
    have e2 : ∑ j in Finset.range (n + 1), warmWeight n s1 (lam / mu) j
        = ∑ j in Finset.range (n + 1), bdWeight (warmRateQ n s1 (lam / mu)) j :=
      Finset.sum_congr rfl fun j hj => warmWeight_eq_bd n s1 _ hs1 j
        (by rw [Finset.mem_range] at hj; omega)
    have e3 : ∑ j in Finset.range (n - k + 1), warmWeight n s2 (lam / mu) j
        = ∑ j in Finset.range (n - k + 1), bdWeight (warmRateQ n s2 (lam / mu)) j :=
      Finset.sum_congr rfl fun j hj => warmWeight_eq_bd n s2 _ hs2 j
        (by rw [Finset.mem_range] at hj; omega)
    have e4 : ∑ j in Finset.range (n + 1), warmWeight n s2 (lam / mu) j
        = ∑ j in Finset.range (n + 1), bdWeight (warmRateQ n s2 (lam / mu)) j :=
      Finset.sum_congr rfl fun j hj => warmWeight_eq_bd n s2 _ hs2 j
        (by rw [Finset.mem_range] at hj; omega)
    rw [e1, e2, e3, e4]
    exact cumulative_mono _ _ n (n - k) (by omega)
      (bdSum_pos _ (fun t _ => warmRateQ_nonneg n s1 _ hrho t) n)
      (bdSum_pos _ (fun t _ => warmRateQ_nonneg n s2 _ hrho t) n)
      (fun i j hij _ => bdWeight_cross _ _
        (fun t ht => warmRateQ_nonneg n s2 _ hrho t)
        (fun t ht => warmRateQ_anti n s1 s2 _ hs1 hss hrho t ht) i j hij)
  · refine ⟨_, _, atf_cold_eq n k s1 lam mu hkn, atf_cold_eq n k s2 lam mu hkn, ?_⟩
    simp only [coldPiU_eq_bd]
    exact cumulative_mono _ _ n (n - k) (by omega)
      (bdSum_pos _ (fun t _ => coldRateQ_nonneg n k s1 lam mu (le_of_lt hlam)
        (le_of_lt hmu) t) n)
      (bdSum_pos _ (fun t _ => coldRateQ_nonneg n k s2 lam mu (le_of_lt hlam)
        (le_of_lt hmu) t) n)
      (fun i j hij _ => bdWeight_cross _ _
        (fun t ht => coldRateQ_nonneg n k s2 lam mu (le_of_lt hlam) (le_of_lt hmu) t)
        (fun t ht => coldRateQ_anti n k s1 s2 lam mu hs1 hss (le_of_lt hlam) hmu t ht)
        i j hij)

theorem C9_availability_mono_witness :
    ((1 : ℕ) ≤ 3 ∧ (1 : ℕ) ≤ 2 ∧ (0 : ℚ) < 1)
      ∧ ∃ a1 a2, (System.mk 3 1 1 1 1 true).active_time_fraction = .ok a1
          ∧ (System.mk 3 1 2 1 1 true).active_time_fraction = .ok a2
          ∧ a1 ≤ a2 :=
  ⟨⟨by omega, by omega, by norm_num⟩,
    C9_availability_mono_in_repairmen 3 1 1 2 1 1 true (show (1 : ℕ) ≤ 3 by omega)
      (by omega) (by omega) (show (0 : ℚ) < 1 by norm_num) (show (0 : ℚ) < 1 by norm_num)
      (fun _ => show (2 : ℕ) ≤ 3 by omega)⟩

/-- C10: the simulator's output depends only on the configuration, the
cycle counts and the seed: both simulators re-seed the generator
(`rand.seed(seed)`) before drawing, so the ambient generator state present
before the call cannot influence the result — two runs with identical
inputs are identical. -/
theorem C10_sim_deterministic {G : Type} (stepExp : G → ℚ × G) (seedFn : ℕ → G)
    (g0 g1 : G) (sys : System) (cycles warmup seed : ℕ) :
    System.sim stepExp seedFn sys cycles warmup seed g0
      = System.sim stepExp seedFn sys cycles warmup seed g1 := rfl
